import Mathlib

/-!
# Verification of the go-plugger plugin registry and its placement resolver

This development embeds the core of the `go-plugger` repository in Lean:

* `Symbol`, `move`, `sortStep`, `sortSymbols` — the generic (third-generation)
  plugin group and its ordering algorithm (`symbol.go`, `slicemove.go`,
  `group.go`); the same placement loop is inlined verbatim in the
  first/second-generation `PluginGroup.sort` of `plugger.go`, so the one
  embedding covers all generations of the resolver.
* `PluginGroup` — group state (clean/dirty flag plus symbol list) with the
  read path (`lock`), `Register` and `Clear`.
* `V1`-namespace definitions — the first-generation string-keyed API of
  `plugger.go` at the repository root, where its behaviour differs from the
  later generations (duplicate-owner check, non-memoizing `New`,
  alias-returning `Plugins`, silently-skipping symbol discovery).
* `Registry`/`SliceHeap` — small heap models giving Go pointer/slice identity
  an observable meaning (allocation counters resp. backing-array indices).

Go strings compare byte-lexicographically; on UTF-8 data this coincides with
the lexicographic order on the lists of code points, i.e. with `≤` on
`String.data : List Char`, which is what the base sort below uses.
-/

namespace Plugger

/-- `Symbol[T]` (symbol.go): a function or interface exposed by a named plugin:
the exposed value `S`, the owning plugin's name, and an optional placement
hint (`""`, `"<"`, `">"`, `"<name"` or `">name"`). -/
structure Symbol (T : Type) where
  S : T
  Plugin : String
  Placement : String
deriving DecidableEq

/-- `move` (slicemove.go): move the element of `s` at index `fr` to index `to`;
`tgt` (Go: `to`) may point one past the last element. The two branches are the in-place
left-compaction (`fr < tgt`) and right-shift (`fr > tgt`) of the Go code,
expressed on lists via `take`/`drop`. An out-of-range `fr` (which would panic
in Go and never occurs in `sort`) leaves the list unchanged. -/
def move {α : Type} (s : List α) (fr tgt : Nat) : List α :=
  if fr = tgt then s
  else
    match s[fr]? with
    | none => s
    | some symbol =>
      if fr < tgt then
        s.take fr ++ (s.drop (fr + 1)).take (tgt - 1 - fr) ++ symbol :: s.drop tgt
      else
        s.take tgt ++ symbol :: (s.drop tgt).take (fr - tgt) ++ s.drop (fr + 1)

/-- Index of the first element of `l` satisfying `p`: the `for … range` search
loops of `sort` break on their first hit. -/
def firstIdx {α : Type} (p : α → Bool) : List α → Option Nat
  | [] => none
  | x :: xs => if p x then some 0 else (firstIdx p xs).map (· + 1)

/-- `strings.HasPrefix(s, c)` for a single one-byte character `c`
(the placement markers `'<'` and `'>'`). -/
def startsWithChar (s : String) (c : Char) : Bool :=
  match s.data with
  | [] => false
  | c' :: _ => c' == c

/-- `s[1:]` for a placement string whose first byte is the one-byte marker
`'<'` or `'>'`. -/
def restOfPlacement (s : String) : String :=
  String.mk (s.data.drop 1)

/-- One iteration of the placement loop of `PluginGroup[T].sort` (group.go;
inlined identically in `PluginGroup.sort` of plugger.go): find the plugin to
process in the current working list (`idx`; Go's loop leaves the last index if
the name is absent, which never happens during `sort`), derive the requested
position from the placement string — `"<"` front, `">"` end, `"<X"`/`">X"`
the current position of the first entry named `X` (or keep `idx` when `X` is
absent) — and `move` the entry there. -/
def sortStep {T : Type} (symbols : List (Symbol T)) (symbol : Symbol T) :
    List (Symbol T) :=
  let idx := (firstIdx (fun s => s.Plugin == symbol.Plugin) symbols).getD
    (symbols.length - 1)
  let pos0 := idx
  let pos1 :=
    if startsWithChar symbol.Placement '<' then
      let before := restOfPlacement symbol.Placement
      if before = "" then 0
      else
        match firstIdx (fun s => s.Plugin == before) symbols with
        | some i => i
        | none => pos0
    else pos0
  let pos2 :=
    if startsWithChar symbol.Placement '>' then
      let after := restOfPlacement symbol.Placement
      if after = "" then symbols.length
      else
        match firstIdx (fun s => s.Plugin == after) symbols with
        | some i => i + 1
        | none => pos1
    else pos1
  move symbols idx pos2

/-- The comparison of the base sort in `sort`: plugin names ascending, Go's
byte-lexicographic `<` on UTF-8 strings being the lexicographic order on the
code-point lists. -/
def byName {T : Type} (a b : Symbol T) : Prop :=
  a.Plugin.data ≤ b.Plugin.data

instance {T : Type} : DecidableRel (@byName T) := fun a b =>
  inferInstanceAs (Decidable (a.Plugin.data ≤ b.Plugin.data))

instance {T : Type} : IsTotal (Symbol T) byName :=
  ⟨fun a b => le_total a.Plugin.data b.Plugin.data⟩

instance {T : Type} : IsTrans (Symbol T) byName :=
  ⟨fun _ _ _ hab hbc => le_trans hab hbc⟩

/-- The same byte/codepoint-lexicographic comparison, on bare owner names. -/
def byNameStr (a b : String) : Prop :=
  a.data ≤ b.data

instance : DecidableRel byNameStr := fun a b =>
  inferInstanceAs (Decidable (a.data ≤ b.data))

/-- `PluginGroup[T].sort` (group.go lines 220–279; the same algorithm is
inlined as `PluginGroup.sort` in plugger.go lines 318–408): first sort
lexicographically by plugin name — `sort.Slice` is modelled by
`insertionSort`, and on lists with pairwise-distinct names every comparison
sort agrees — then run the placement loop over the name-sorted list, starting
from a clone of it. -/
def sortSymbols {T : Type} (l : List (Symbol T)) : List (Symbol T) :=
  let sorted := l.insertionSort byName
  sorted.foldl sortStep sorted

/-- `PluginGroup[T]` (group.go): the clean/dirty flag `ordered` and the
registered symbols. The `sync.RWMutex` is not modelled; the operations below
are functions of the group state. -/
structure PluginGroup (T : Type) where
  ordered : Bool
  symbols : List (Symbol T)
deriving DecidableEq

namespace PluginGroup

/-- `PluginGroup[T].Register` (group.go lines 104–115): mark the group
unordered and append the completed symbol. There is no duplicate-owner check
in this generation. (`Validate` and caller-path completion are modelled
separately.) -/
def Register {T : Type} (g : PluginGroup T) (s : Symbol T) : PluginGroup T :=
  { ordered := false, symbols := g.symbols ++ [s] }

/-- `PluginGroup[T].lock` (group.go lines 284–303): before a read, sort the
symbols if the group is not yet ordered, and mark it ordered. -/
def lock {T : Type} (g : PluginGroup T) : PluginGroup T :=
  if g.ordered then g else { ordered := true, symbols := sortSymbols g.symbols }

/-- `PluginGroup[T].Plugins` (group.go lines 175–184): the plugin names, in
resolved order. -/
def Plugins {T : Type} (g : PluginGroup T) : List String :=
  g.lock.symbols.map (fun s => s.Plugin)

/-- `PluginGroup[T].Symbols` (group.go lines 136–145): the exposed symbols, in
resolved order. -/
def Symbols {T : Type} (g : PluginGroup T) : List T :=
  g.lock.symbols.map (fun s => s.S)

/-- `PluginGroup[T].Clear` (group.go lines 187–192):
`g.ordered = false; g.symbols = nil`. -/
def Clear {T : Type} (_g : PluginGroup T) : PluginGroup T :=
  { ordered := false, symbols := [] }

end PluginGroup

/-! ## The placement resolver stated in the specification's words (§4.3)

The following definitions transcribe the spec's description of a single
placement directive — "move to the very front", "to the very end",
"immediately before/after the entry whose owner is `X`, evaluated against the
current list", "silently ignored if `X` is absent", "self-reference is a
no-op" — to be compared against `sortStep`/`sortSymbols` above. -/

/-- The first entry of `l` owned by `n`, if any. -/
def findByName {T : Type} (n : String) : List (Symbol T) → Option (Symbol T)
  | [] => none
  | x :: xs => if x.Plugin == n then some x else findByName n xs

/-- Remove the first entry owned by `n`. -/
def removeByName {T : Type} (n : String) : List (Symbol T) → List (Symbol T)
  | [] => []
  | x :: xs => if x.Plugin == n then xs else x :: removeByName n xs

/-- Insert `e` immediately before the first entry owned by `n`. -/
def insertBeforeName {T : Type} (n : String) (e : Symbol T) :
    List (Symbol T) → List (Symbol T)
  | [] => [e]
  | x :: xs => if x.Plugin == n then e :: x :: xs else x :: insertBeforeName n e xs

/-- Insert `e` immediately after the first entry owned by `n`. -/
def insertAfterName {T : Type} (n : String) (e : Symbol T) :
    List (Symbol T) → List (Symbol T)
  | [] => [e]
  | x :: xs => if x.Plugin == n then x :: e :: xs else x :: insertAfterName n e xs

/-- Does some entry of `l` have owner `n`? -/
def containsName {T : Type} (n : String) (l : List (Symbol T)) : Bool :=
  l.any (fun s => s.Plugin == n)

/-- One placement directive as the spec states it (§4.3): `"<"` moves the
entry to the very front; `">"` to the very end; `"<X"` to immediately before
the entry currently owned by `X` and `">X"` to immediately after it, the
anchor being looked up in the current list; a directive whose anchor is
absent is silently ignored, a self-referencing directive is a no-op, and a
placement outside the grammar leaves the list unchanged. -/
def specStep {T : Type} (symbols : List (Symbol T)) (symbol : Symbol T) :
    List (Symbol T) :=
  match findByName symbol.Plugin symbols with
  | none => symbols
  | some entry =>
    if startsWithChar symbol.Placement '<' then
      let anchor := restOfPlacement symbol.Placement
      if anchor = "" then entry :: removeByName symbol.Plugin symbols
      else if anchor = symbol.Plugin then symbols
      else if containsName anchor symbols then
        insertBeforeName anchor entry (removeByName symbol.Plugin symbols)
      else symbols
    else if startsWithChar symbol.Placement '>' then
      let anchor := restOfPlacement symbol.Placement
      if anchor = "" then removeByName symbol.Plugin symbols ++ [entry]
      else if anchor = symbol.Plugin then symbols
      else if containsName anchor symbols then
        insertAfterName anchor entry (removeByName symbol.Plugin symbols)
      else symbols
    else symbols

/-- The whole resolver as the spec states it (§4.3): base order by owner name
ascending, then the placement directives applied one entry at a time, in
ascending owner-name order of the directive's own owner, each against the
list as constructed so far. -/
def specResolve {T : Type} (l : List (Symbol T)) : List (Symbol T) :=
  let sorted := l.insertionSort byName
  sorted.foldl specStep sorted

/-- Replace the placement of every entry owned by `n` by the empty placement:
"as if the entry had registered no placement". -/
def unplace {T : Type} (n : String) (x : Symbol T) : Symbol T :=
  if x.Plugin = n then { x with Placement := "" } else x



/-! ## The first-generation string-keyed API (plugger.go at the repo root)

The `V1` namespace models the points where the first generation differs from
the later ones: the duplicate-owner check in `registerPlugin`, the
non-memoizing `New`, the alias-returning `Plugins`, and the silently-skipping
symbol-discovery loop. -/

/-- `PluginSpec` (plugger.go), restricted to the fields the duplicate check
and the resolver read; the exported symbol list is modelled separately as
`V1.V1Symbol`s. -/
structure PluginSpec where
  Name : String
  Group : String
  Placement : String
deriving DecidableEq

namespace Reflect

/-- The subset of `reflect.Kind` that the registration paths inspect:
functions, interfaces, pointers, the invalid (nil-interface) kind, and a
stand-in for every other kind. -/
inductive Kind
  | Func
  | Interface
  | Pointer
  | Invalid
  | Other
deriving DecidableEq

end Reflect

/-- A registered Go value as seen through `reflect`: its kind, and whether it
is nil (meaningful for the nilable kinds). -/
structure GoValue where
  kind : Reflect.Kind
  isNil : Bool
deriving DecidableEq

/-- `Symbol[T].Validate` (symbol.go lines 127–142): `tKind` is the reflected
kind of the type parameter `T` and `v` the registered value; Go's `panic` is
modelled as `Except.error`. A nil function, a nil/invalid interface value, or
a type parameter that is neither a function nor an interface type panics. -/
def Validate (tKind : Reflect.Kind) (v : GoValue) : Except String Unit :=
  match tKind with
  | Reflect.Kind.Func =>
    if v.isNil then Except.error "func symbol must not be nil"
    else Except.ok ()
  | Reflect.Kind.Interface =>
    if v.kind == Reflect.Kind.Invalid ||
        (v.kind == Reflect.Kind.Pointer && v.isNil) then
      Except.error "interface symbol must not be nil"
    else Except.ok ()
  | _ => Except.error "symbol must be func or interface"

namespace V1

/-- First-generation `PluginGroup` (plugger.go lines 65–69). -/
structure PluginGroup where
  Group : String
  unsorted : Bool
  plugins : List PluginSpec
deriving DecidableEq

/-- The duplicate-registration guard and append of `registerPlugin`
(plugger.go lines 201–210): scanning the group's plugins for the name and
panicking — modelled as `Except.error` — on a hit, otherwise marking the
group unsorted and appending. Caller-path name discovery and the
reflection-based symbol map of the earlier lines are modelled separately. -/
def registerInGroup (pg : PluginGroup) (pspec : PluginSpec) :
    Except String PluginGroup :=
  if pg.plugins.any (fun plug => pspec.Name == plug.Name) then
    Except.error ("duplicate plugin name registration " ++ pspec.Name)
  else
    Except.ok { pg with unsorted := true, plugins := pg.plugins ++ [pspec] }

/-- A symbol passed to first-generation `registerPlugin`: either a
`NamedSymbol`, or a bare value whose `name` carries the reflectively derived
function name (`Func` kinds) resp. pointed-to type name (`Pointer` kinds);
for bare values the kind is that of a non-nil value (`reflect.TypeOf` of a
nil interface would itself crash the registration). -/
inductive V1Symbol
  | named (name : String) (kind : Reflect.Kind)
  | bare (kind : Reflect.Kind) (name : String)
deriving DecidableEq

/-- The symbol-discovery loop of `registerPlugin` (plugger.go lines 158–193),
building `symbolmap` from the accumulated map `m`: named symbols with empty
names are skipped (`continue`), named symbols of kinds other than `Func` and
`Ptr` are skipped, bare symbols of other kinds are skipped, and a name
already present in the map panics (`Except.error`). -/
def buildSymbolMapFrom (m : List (String × V1Symbol)) :
    List V1Symbol → Except String (List (String × V1Symbol))
  | [] => Except.ok m
  | symbol :: rest =>
    match symbol with
    | V1Symbol.named name kind =>
      if name = "" then buildSymbolMapFrom m rest
      else if kind = Reflect.Kind.Func ∨ kind = Reflect.Kind.Pointer then
        if (m.map Prod.fst).contains name then
          Except.error ("duplicate symbol " ++ name)
        else buildSymbolMapFrom (m ++ [(name, symbol)]) rest
      else buildSymbolMapFrom m rest
    | V1Symbol.bare kind name =>
      if kind = Reflect.Kind.Func ∨ kind = Reflect.Kind.Pointer then
        if (m.map Prod.fst).contains name then
          Except.error ("duplicate symbol " ++ name)
        else buildSymbolMapFrom (m ++ [(name, symbol)]) rest
      else buildSymbolMapFrom m rest

/-- `registerPlugin`'s symbol map, starting from the empty map
(`pspec.symbolmap = map[string]Symbol{}`). -/
def buildSymbolMap (syms : List V1Symbol) :
    Except String (List (String × V1Symbol)) :=
  buildSymbolMapFrom [] syms

end V1

/-! ## Object identity of groups (registry model)

Go pointer identity is modelled by an allocation counter: every
`&PluginGroup{…}` evaluation yields a fresh object identifier, and the
package-level registry maps a group key to the identifier of the group object
registered under it. The key type `κ` covers both the string-keyed
generations (`κ = String`) and the generic `Group[T]` registry keyed by the
reflected symbol type. -/

/-- The package-level group registry (`pluginGroups` in plugger.go, `groups`
in group.go) together with the allocation counter of the identity model. -/
structure Registry (κ : Type) where
  groups : List (κ × Nat)
  nextId : Nat
deriving DecidableEq

/-- Assoc-list lookup, as Go's map indexing `pluginGroups[name]`. -/
def lookupKey {κ : Type} [DecidableEq κ] : List (κ × Nat) → κ → Option Nat
  | [], _ => none
  | (k, v) :: rest, name => if k = name then some v else lookupKey rest name

/-- First-generation `New` (plugger.go lines 217–228): on a miss a fresh
empty group object is allocated and returned, but NOT entered into
`pluginGroups`. (The lazy re-sort `New` also performs does not touch object
identity and is modelled with the group state, not here.) -/
def NewV1 {κ : Type} [DecidableEq κ] (r : Registry κ) (name : κ) :
    Nat × Registry κ :=
  match lookupKey r.groups name with
  | some id => (id, r)
  | none => (r.nextId, { r with nextId := r.nextId + 1 })

/-- Second-generation `New` (lines 346–358 of the sources) and the generic
`Group[T]` (group.go lines 49–60): on a miss the freshly allocated group is
entered into the registry map before being returned. -/
def NewV2 {κ : Type} [DecidableEq κ] (r : Registry κ) (name : κ) :
    Nat × Registry κ :=
  match lookupKey r.groups name with
  | some id => (id, r)
  | none =>
    (r.nextId, { groups := (name, r.nextId) :: r.groups, nextId := r.nextId + 1 })

/-! ## Slice aliasing (heap model)

A Go slice value is modelled as an index into a heap of backing arrays, so
that aliasing between a slice handed to a caller and a group's internal
slice becomes observable: writing through the returned index and then reading
the group's own index tells whether the query returned a defensive copy. -/

/-- A heap of slice backing arrays; a slice value is an index into it. -/
structure SliceHeap (α : Type) where
  slices : List (List α)
deriving DecidableEq

/-- Dereference a slice value. -/
def SliceHeap.read {α : Type} (h : SliceHeap α) (id : Nat) : List α :=
  (h.slices[id]?).getD []

/-- Mutate the backing array of a slice value (what a caller does when it
writes to elements of a returned slice). -/
def SliceHeap.write {α : Type} (h : SliceHeap α) (id : Nat) (l : List α) :
    SliceHeap α :=
  { slices := h.slices.set id l }

/-- Allocate a fresh backing array holding `l`. -/
def SliceHeap.alloc {α : Type} (h : SliceHeap α) (l : List α) :
    Nat × SliceHeap α :=
  (h.slices.length, { slices := h.slices ++ [l] })

namespace V1

/-- First-generation `PluginGroup.Plugins` (plugger.go lines 300–302):
`return pg.plugins` hands out the internal slice value itself — no
allocation, the returned slice is the group's own. -/
def Plugins {α : Type} (pluginsId : Nat) (h : SliceHeap α) :
    Nat × SliceHeap α :=
  (pluginsId, h)

end V1

namespace V2

/-- Second-generation `PluginGroup.Plugins` (lines 428–430:
`append(pg.plugins[:0:0], pg.plugins...)`) and the generic
`PluginGroup[T].PluginsSymbols` (`slices.Clone(g.symbols)`): allocate a fresh
backing array holding a copy of the internal slice. -/
def Plugins {α : Type} (pluginsId : Nat) (h : SliceHeap α) :
    Nat × SliceHeap α :=
  h.alloc (h.read pluginsId)

end V2

/-! ## Sanity: the embedding reproduces the ordering test table of the
repository's own test suite (the `DescribeTable("orders plugins", …)` entries,
which construct a group from three symbols and compare `Plugins()`). -/

/-- Abbreviation for the test vectors: a symbol without a payload. -/
def sym (name placement : String) : Symbol Unit :=
  ⟨(), name, placement⟩

/-- Names produced by the resolver on a given registration list. -/
def resolvedNames (l : List (Symbol Unit)) : List String :=
  (sortSymbols l).map (fun s => s.Plugin)

theorem sort_repo_table_1 :
    resolvedNames [sym "beta" "", sym "gamma" "", sym "alpha" ""] =
      ["alpha", "beta", "gamma"] := by decide

theorem sort_repo_table_2 :
    resolvedNames [sym "beta" "", sym "gamma" "<", sym "alpha" ""] =
      ["gamma", "alpha", "beta"] := by decide

theorem sort_repo_table_3 :
    resolvedNames [sym "alpha" "<", sym "gamma" "", sym "beta" ""] =
      ["alpha", "beta", "gamma"] := by decide

theorem sort_repo_table_4 :
    resolvedNames [sym "beta" ">", sym "gamma" "", sym "alpha" ""] =
      ["alpha", "gamma", "beta"] := by decide

theorem sort_repo_table_5 :
    resolvedNames [sym "beta" "", sym "alpha" "", sym "gamma" ">"] =
      ["alpha", "beta", "gamma"] := by decide

theorem sort_repo_table_6 :
    resolvedNames [sym "beta" "", sym "gamma" "", sym "alpha" "<gamma"] =
      ["beta", "alpha", "gamma"] := by decide

theorem sort_repo_table_7 :
    resolvedNames [sym "beta" "", sym "gamma" "", sym "alpha" "<beta"] =
      ["alpha", "beta", "gamma"] := by decide

theorem sort_repo_table_8 :
    resolvedNames [sym "beta" "<beta", sym "gamma" "", sym "alpha" ""] =
      ["alpha", "beta", "gamma"] := by decide

theorem sort_repo_table_9 :
    resolvedNames [sym "beta" "", sym "gamma" "", sym "alpha" ">beta"] =
      ["beta", "alpha", "gamma"] := by decide

theorem sort_repo_table_10 :
    resolvedNames [sym "beta" "", sym "gamma" "", sym "alpha" ">gamma"] =
      ["beta", "gamma", "alpha"] := by decide

theorem sort_repo_table_11 :
    resolvedNames [sym "beta" ">beta", sym "gamma" "", sym "alpha" ""] =
      ["alpha", "beta", "gamma"] := by decide

theorem sort_repo_table_12 :
    resolvedNames [sym "beta" ">coma", sym "gamma" "", sym "alpha" ""] =
      ["alpha", "beta", "gamma"] := by decide

/-! ## Toolkit lemmas: strings, list splitting, `firstIdx`, and the spec-side
list operations evaluated on split lists -/

theorem string_mk_data (s : String) : String.mk s.data = s := rfl

theorem string_data_inj {s₁ s₂ : String} (h : s₁.data = s₂.data) : s₁ = s₂ :=
  congrArg String.mk h

theorem take_len {α : Type} (a l : List α) : (a ++ l).take a.length = a := by
  induction a with
  | nil => rfl
  | cons x xs ih => simpa using ih

theorem take_len_add {α : Type} (a l : List α) (k : Nat) :
    (a ++ l).take (a.length + k) = a ++ l.take k := by
  induction a with
  | nil => simp
  | cons x xs ih => simpa [Nat.succ_add] using ih

theorem drop_len {α : Type} (a l : List α) : (a ++ l).drop a.length = l := by
  induction a with
  | nil => rfl
  | cons x xs ih => simpa using ih

theorem drop_len_add {α : Type} (a l : List α) (k : Nat) :
    (a ++ l).drop (a.length + k) = l.drop k := by
  induction a with
  | nil => simp
  | cons x xs ih => simpa [Nat.succ_add] using ih

theorem get_split {α : Type} (a : List α) (x : α) (l : List α) :
    (a ++ x :: l)[a.length]? = some x := by
  induction a with
  | nil => simp
  | cons y ys ih => simpa using ih

theorem take_get_drop {α : Type} {s : List α} {i : Nat} {x : α}
    (h : s[i]? = some x) : s.take i ++ x :: s.drop (i + 1) = s := by
  induction s generalizing i with
  | nil => simp at h
  | cons y ys ih =>
    cases i with
    | zero =>
      simp only [List.getElem?_cons_zero, Option.some.injEq] at h
      simp [h]
    | succ j =>
      simp only [List.getElem?_cons_succ] at h
      simpa using ih h

theorem drop_of_get {α : Type} {s : List α} {i : Nat} {x : α}
    (h : s[i]? = some x) : s.drop i = x :: s.drop (i + 1) := by
  induction s generalizing i with
  | nil => simp at h
  | cons y ys ih =>
    cases i with
    | zero =>
      simp only [List.getElem?_cons_zero, Option.some.injEq] at h
      simp [h]
    | succ j =>
      simp only [List.getElem?_cons_succ] at h
      simpa using ih h

theorem firstIdx_cons {α : Type} (p : α → Bool) (x : α) (xs : List α) :
    firstIdx p (x :: xs) =
      if p x then some 0 else (firstIdx p xs).map (· + 1) := rfl

theorem firstIdx_none {T : Type} {n : String} {l : List (Symbol T)}
    (h : ∀ z ∈ l, z.Plugin ≠ n) :
    firstIdx (fun s => s.Plugin == n) l = none := by
  induction l with
  | nil => rfl
  | cons x xs ih =>
    have hx : (x.Plugin == n) = false := by
      simpa using h x (by simp)
    simp [firstIdx_cons, hx, ih fun z hz => h z (by simp [hz])]

theorem firstIdx_split {T : Type} {n : String} {a : List (Symbol T)}
    {x : Symbol T} (b : List (Symbol T)) (ha : ∀ z ∈ a, z.Plugin ≠ n)
    (hx : x.Plugin = n) :
    firstIdx (fun s => s.Plugin == n) (a ++ x :: b) = some a.length := by
  induction a with
  | nil => simp [firstIdx_cons, hx]
  | cons y ys ih =>
    have hy : (y.Plugin == n) = false := by
      simpa using ha y (by simp)
    have := ih fun z hz => ha z (by simp [hz])
    simp [firstIdx_cons, hy, this]

theorem findByName_split {T : Type} {n : String} {a : List (Symbol T)}
    {x : Symbol T} (b : List (Symbol T)) (ha : ∀ z ∈ a, z.Plugin ≠ n)
    (hx : x.Plugin = n) : findByName n (a ++ x :: b) = some x := by
  induction a with
  | nil => simp [findByName, hx]
  | cons y ys ih =>
    have hy : (y.Plugin == n) = false := by
      simpa using ha y (by simp)
    have := ih fun z hz => ha z (by simp [hz])
    simp [findByName, hy, this]

theorem findByName_none {T : Type} {n : String} {l : List (Symbol T)}
    (h : ∀ z ∈ l, z.Plugin ≠ n) : findByName n l = none := by
  induction l with
  | nil => rfl
  | cons x xs ih =>
    have hx : (x.Plugin == n) = false := by
      simpa using h x (by simp)
    simp [findByName, hx, ih fun z hz => h z (by simp [hz])]

theorem removeByName_split {T : Type} {n : String} {a : List (Symbol T)}
    {x : Symbol T} (b : List (Symbol T)) (ha : ∀ z ∈ a, z.Plugin ≠ n)
    (hx : x.Plugin = n) : removeByName n (a ++ x :: b) = a ++ b := by
  induction a with
  | nil => simp [removeByName, hx]
  | cons y ys ih =>
    have hy : (y.Plugin == n) = false := by
      simpa using ha y (by simp)
    have := ih fun z hz => ha z (by simp [hz])
    simp [removeByName, hy, this]

theorem insertBeforeName_split {T : Type} {n : String} {a : List (Symbol T)}
    {x : Symbol T} (e : Symbol T) (b : List (Symbol T))
    (ha : ∀ z ∈ a, z.Plugin ≠ n) (hx : x.Plugin = n) :
    insertBeforeName n e (a ++ x :: b) = a ++ e :: x :: b := by
  induction a with
  | nil => simp [insertBeforeName, hx]
  | cons y ys ih =>
    have hy : (y.Plugin == n) = false := by
      simpa using ha y (by simp)
    have := ih fun z hz => ha z (by simp [hz])
    simp [insertBeforeName, hy, this]

theorem insertAfterName_split {T : Type} {n : String} {a : List (Symbol T)}
    {x : Symbol T} (e : Symbol T) (b : List (Symbol T))
    (ha : ∀ z ∈ a, z.Plugin ≠ n) (hx : x.Plugin = n) :
    insertAfterName n e (a ++ x :: b) = a ++ x :: e :: b := by
  induction a with
  | nil => simp [insertAfterName, hx]
  | cons y ys ih =>
    have hy : (y.Plugin == n) = false := by
      simpa using ha y (by simp)
    have := ih fun z hz => ha z (by simp [hz])
    simp [insertAfterName, hy, this]

theorem containsName_iff {T : Type} (n : String) (l : List (Symbol T)) :
    containsName n l = true ↔ n ∈ l.map (fun s => s.Plugin) := by
  simp [containsName, List.mem_map]

theorem containsName_false {T : Type} {n : String} {l : List (Symbol T)}
    (h : ∀ z ∈ l, z.Plugin ≠ n) : containsName n l = false := by
  rw [Bool.eq_false_iff]
  intro hc
  rcases List.mem_map.1 ((containsName_iff n l).1 hc) with ⟨y, hy, hyn⟩
  exact h y hy hyn

theorem firstIdx_get {α : Type} {p : α → Bool} {l : List α} {i : Nat}
    (h : firstIdx p l = some i) : ∃ x, l[i]? = some x ∧ p x = true := by
  induction l generalizing i with
  | nil => simp [firstIdx] at h
  | cons y ys ih =>
    by_cases hy : p y
    · simp only [firstIdx_cons, if_pos hy, Option.some.injEq] at h
      exact ⟨y, by simp [← h], hy⟩
    · simp only [firstIdx_cons, if_neg hy, Option.map_eq_some'] at h
      rcases h with ⟨j, hj, rfl⟩
      rcases ih hj with ⟨x, hx, hpx⟩
      exact ⟨x, by simpa using hx, hpx⟩

/-! ## Computing `move` on split lists -/

theorem move_self_idx {α : Type} (s : List α) (i : Nat) : move s i i = s := by
  simp [move]

theorem move_to_front {α : Type} (a : List α) (x : α) (b : List α) :
    move (a ++ x :: b) a.length 0 = x :: (a ++ b) := by
  rcases Nat.eq_zero_or_pos a.length with h0 | hpos
  · have ha : a = [] := List.length_eq_zero.mp h0
    subst ha
    simp [move]
  · have h1 : ¬ (a.length = 0) := by omega
    have h2 : ¬ (a.length < 0) := by omega
    simp only [move, get_split, if_neg h1, if_neg h2]
    rw [List.take_zero, List.drop_zero, Nat.sub_zero, take_len a (x :: b)]
    have hd : (a ++ x :: b).drop (a.length + 1) = b := by
      rw [drop_len_add a (x :: b) 1]
      simp
    rw [hd]
    simp

theorem move_to_end {α : Type} (a : List α) (x : α) (b : List α) :
    move (a ++ x :: b) a.length (a ++ x :: b).length = a ++ (b ++ [x]) := by
  have hlen : (a ++ x :: b).length = a.length + 1 + b.length := by
    simp only [List.length_append, List.length_cons]
    omega
  have h1 : ¬ (a.length = (a ++ x :: b).length) := by
    rw [hlen]
    omega
  have h2 : a.length < (a ++ x :: b).length := by
    rw [hlen]
    omega
  simp only [move, get_split, if_neg h1, if_pos h2]
  rw [take_len a (x :: b)]
  have hd1 : (a ++ x :: b).drop (a.length + 1) = b := by
    rw [drop_len_add a (x :: b) 1]
    simp
  rw [hd1]
  have harith : (a ++ x :: b).length - 1 - a.length = b.length := by
    rw [hlen]
    omega
  rw [harith, List.take_length, List.drop_length]
  simp

theorem move_fwd_before {α : Type} (a : List α) (x : α) (m : List α) (y : α)
    (b : List α) :
    move (a ++ x :: (m ++ y :: b)) a.length (a.length + 1 + m.length) =
      a ++ (m ++ x :: y :: b) := by
  have h1 : ¬ (a.length = a.length + 1 + m.length) := by omega
  have h2 : a.length < a.length + 1 + m.length := by omega
  simp only [move, get_split, if_neg h1, if_pos h2]
  rw [take_len a (x :: (m ++ y :: b))]
  have hd1 : (a ++ x :: (m ++ y :: b)).drop (a.length + 1) = m ++ y :: b := by
    rw [drop_len_add a (x :: (m ++ y :: b)) 1]
    simp
  rw [hd1]
  have harith : a.length + 1 + m.length - 1 - a.length = m.length := by omega
  rw [harith, take_len m (y :: b)]
  have hd2 : (a ++ x :: (m ++ y :: b)).drop (a.length + 1 + m.length) =
      y :: b := by
    have he : a.length + 1 + m.length = a.length + (1 + m.length) := by omega
    rw [he, drop_len_add a (x :: (m ++ y :: b)) (1 + m.length)]
    have he2 : 1 + m.length = m.length + 1 := by omega
    rw [he2]
    simpa using drop_len m (y :: b)
  rw [hd2]
  simp

theorem move_fwd_after {α : Type} (a : List α) (x : α) (m : List α) (y : α)
    (b : List α) :
    move (a ++ x :: (m ++ y :: b)) a.length (a.length + 1 + m.length + 1) =
      a ++ (m ++ y :: x :: b) := by
  have h1 : ¬ (a.length = a.length + 1 + m.length + 1) := by omega
  have h2 : a.length < a.length + 1 + m.length + 1 := by omega
  simp only [move, get_split, if_neg h1, if_pos h2]
  rw [take_len a (x :: (m ++ y :: b))]
  have hd1 : (a ++ x :: (m ++ y :: b)).drop (a.length + 1) = m ++ y :: b := by
    rw [drop_len_add a (x :: (m ++ y :: b)) 1]
    simp
  rw [hd1]
  have harith : a.length + 1 + m.length + 1 - 1 - a.length = m.length + 1 := by
    omega
  rw [harith, take_len_add m (y :: b) 1]
  have hd2 : (a ++ x :: (m ++ y :: b)).drop (a.length + 1 + m.length + 1) =
      b := by
    have he : a.length + 1 + m.length + 1 = a.length + (1 + (m.length + 1)) := by
      omega
    rw [he, drop_len_add a (x :: (m ++ y :: b)) (1 + (m.length + 1))]
    have he2 : (1 : Nat) + (m.length + 1) = m.length + 1 + 1 := by omega
    rw [he2]
    have hmb := drop_len_add m (y :: b) 1
    simpa using hmb
  rw [hd2]
  simp

theorem move_bwd_before {α : Type} (a : List α) (y : α) (m : List α) (x : α)
    (b : List α) :
    move (a ++ y :: (m ++ x :: b)) (a.length + 1 + m.length) a.length =
      a ++ x :: y :: (m ++ b) := by
  have h1 : ¬ (a.length + 1 + m.length = a.length) := by omega
  have h2 : ¬ (a.length + 1 + m.length < a.length) := by omega
  have hget : (a ++ y :: (m ++ x :: b))[a.length + 1 + m.length]? = some x := by
    have hs : a ++ y :: (m ++ x :: b) = (a ++ y :: m) ++ x :: b := by simp
    have hlen : (a ++ y :: m).length = a.length + 1 + m.length := by
      simp only [List.length_append, List.length_cons]
      omega
    rw [hs, ← hlen]
    exact get_split (a ++ y :: m) x b
  simp only [move, hget, if_neg h1, if_neg h2]
  rw [take_len a (y :: (m ++ x :: b)), drop_len a (y :: (m ++ x :: b))]
  have harith : a.length + 1 + m.length - a.length = m.length + 1 := by omega
  rw [harith, List.take_succ_cons, take_len m (x :: b)]
  have hd2 : (a ++ y :: (m ++ x :: b)).drop (a.length + 1 + m.length + 1) =
      b := by
    have he : a.length + 1 + m.length + 1 = a.length + (1 + (m.length + 1)) := by
      omega
    rw [he, drop_len_add a (y :: (m ++ x :: b)) (1 + (m.length + 1))]
    have he2 : (1 : Nat) + (m.length + 1) = m.length + 1 + 1 := by omega
    rw [he2]
    have hmb := drop_len_add m (x :: b) 1
    simpa using hmb
  rw [hd2]
  simp

theorem move_bwd_after {α : Type} (a : List α) (y : α) (m : List α) (x : α)
    (b : List α) :
    move (a ++ y :: (m ++ x :: b)) (a.length + 1 + m.length) (a.length + 1) =
      a ++ y :: x :: (m ++ b) := by
  rcases List.eq_nil_or_concat m with hm | hm
  · subst hm
    simp only [List.nil_append, List.length_nil, Nat.add_zero]
    rw [move_self_idx]
  have hmne : m ≠ [] := by
    rcases hm with ⟨l, e, rfl⟩
    simp
  have hmpos : 0 < m.length := List.length_pos.mpr hmne
  have h1 : ¬ (a.length + 1 + m.length = a.length + 1) := by omega
  have h2 : ¬ (a.length + 1 + m.length < a.length + 1) := by omega
  have hget : (a ++ y :: (m ++ x :: b))[a.length + 1 + m.length]? = some x := by
    have hs : a ++ y :: (m ++ x :: b) = (a ++ y :: m) ++ x :: b := by simp
    have hlen : (a ++ y :: m).length = a.length + 1 + m.length := by
      simp only [List.length_append, List.length_cons]
      omega
    rw [hs, ← hlen]
    exact get_split (a ++ y :: m) x b
  simp only [move, hget, if_neg h1, if_neg h2]
  have ht : (a ++ y :: (m ++ x :: b)).take (a.length + 1) = a ++ [y] := by
    rw [take_len_add a (y :: (m ++ x :: b)) 1]
    simp
  rw [ht]
  have hd : (a ++ y :: (m ++ x :: b)).drop (a.length + 1) = m ++ x :: b := by
    rw [drop_len_add a (y :: (m ++ x :: b)) 1]
    simp
  rw [hd]
  have harith : a.length + 1 + m.length - (a.length + 1) = m.length := by omega
  rw [harith, take_len m (x :: b)]
  have hd2 : (a ++ y :: (m ++ x :: b)).drop (a.length + 1 + m.length + 1) =
      b := by
    have he : a.length + 1 + m.length + 1 = a.length + (1 + (m.length + 1)) := by
      omega
    rw [he, drop_len_add a (y :: (m ++ x :: b)) (1 + (m.length + 1))]
    have he2 : (1 : Nat) + (m.length + 1) = m.length + 1 + 1 := by omega
    rw [he2]
    have hmb := drop_len_add m (x :: b) 1
    simpa using hmb
  rw [hd2]
  simp

theorem move_succ {α : Type} {s : List α} {i : Nat} {x : α}
    (hget : s[i]? = some x) : move s i (i + 1) = s := by
  have h1 : ¬ (i = i + 1) := by omega
  have h2 : i < i + 1 := by omega
  simp only [move, hget, if_neg h1, if_pos h2]
  have harith : i + 1 - 1 - i = 0 := by omega
  rw [harith, List.take_zero]
  simpa using take_get_drop hget

theorem move_perm {α : Type} (s : List α) (fr tgt : Nat) :
    List.Perm (move s fr tgt) s := by
  by_cases h0 : fr = tgt
  · rw [h0, move_self_idx]
  cases hget : s[fr]? with
  | none =>
    simp only [move, hget, if_neg h0]
    exact List.Perm.refl s
  | some x =>
    by_cases hlt : fr < tgt
    · simp only [move, hget, if_neg h0, if_pos hlt]
      have hdrop : s.drop tgt = (s.drop (fr + 1)).drop (tgt - 1 - fr) := by
        rw [List.drop_drop]
        congr 1
        omega
      rw [hdrop, List.append_assoc]
      conv =>
        rhs
        rw [← take_get_drop hget]
      refine List.Perm.append_left _ ?_
      exact List.perm_middle.trans (by rw [List.take_append_drop])
    · simp only [move, hget, if_neg h0, if_neg hlt]
      have hB : (s.drop tgt).drop (fr - tgt) = s.drop fr := by
        rw [List.drop_drop]
        congr 1
        omega
      conv =>
        rhs
        rw [← List.take_append_drop tgt s,
          ← List.take_append_drop (fr - tgt) (s.drop tgt), hB, drop_of_get hget]
      rw [List.append_assoc, List.cons_append]
      refine List.Perm.append_left _ ?_
      exact List.perm_middle.symm

/-! ## The placement loop body agrees with the spec's directive semantics -/

theorem nodup_split_names {T : Type} {a : List (Symbol T)} {x : Symbol T}
    {b : List (Symbol T)}
    (hnd : ((a ++ x :: b).map (fun s => s.Plugin)).Nodup) :
    (∀ z ∈ a, z.Plugin ≠ x.Plugin) ∧ (∀ z ∈ b, z.Plugin ≠ x.Plugin) := by
  rw [List.map_append, List.map_cons, List.nodup_append] at hnd
  obtain ⟨-, h2, h3⟩ := hnd
  refine ⟨fun z hz he => ?_, fun z hz he => ?_⟩
  · exact h3 (List.mem_map_of_mem _ hz) (by simp [he])
  · rw [List.nodup_cons] at h2
    exact h2.1 (he ▸ List.mem_map_of_mem (fun s => s.Plugin) hz)

theorem string_mk_eq_empty_iff (l : List Char) : String.mk l = "" ↔ l = [] := by
  constructor
  · intro h
    simpa using congrArg String.data h
  · intro h
    subst h
    rfl

/-- One iteration of the placement loop computes exactly the spec's directive
semantics (`specStep`), on every working list with pairwise-distinct owner
names that contains the directive's owner. -/
theorem sortStep_eq_specStep {T : Type} {w : List (Symbol T)} (e : Symbol T)
    (hnd : (w.map (fun s => s.Plugin)).Nodup)
    (hmem : e.Plugin ∈ w.map (fun s => s.Plugin)) :
    sortStep w e = specStep w e := by
  rcases List.mem_map.1 hmem with ⟨y, hyw, hyn⟩
  rcases List.append_of_mem hyw with ⟨a, b, rfl⟩
  have hfr := nodup_split_names hnd
  have han : ∀ z ∈ a, z.Plugin ≠ e.Plugin := fun z hz => hyn ▸ hfr.1 z hz
  have hidx : firstIdx (fun s => s.Plugin == e.Plugin) (a ++ y :: b) =
      some a.length := firstIdx_split b han hyn
  have hfind : findByName e.Plugin (a ++ y :: b) = some y :=
    findByName_split b han hyn
  have hrem : removeByName e.Plugin (a ++ y :: b) = a ++ b :=
    removeByName_split b han hyn
  cases hd : e.Placement.data with
  | nil =>
    have hlt : startsWithChar e.Placement '<' = false := by
      simp [startsWithChar, hd]
    have hgt : startsWithChar e.Placement '>' = false := by
      simp [startsWithChar, hd]
    have hL : sortStep (a ++ y :: b) e = a ++ y :: b := by
      simp only [sortStep, hlt, hgt, Bool.false_eq_true, if_false]
      exact move_self_idx _ _
    have hR : specStep (a ++ y :: b) e = a ++ y :: b := by
      simp only [specStep, hfind, hlt, hgt, Bool.false_eq_true, if_false]
    rw [hL, hR]
  | cons c rest =>
    have hswlt : startsWithChar e.Placement '<' = (c == '<') := by
      simp [startsWithChar, hd]
    have hswgt : startsWithChar e.Placement '>' = (c == '>') := by
      simp [startsWithChar, hd]
    have hrest : restOfPlacement e.Placement = String.mk rest := by
      simp [restOfPlacement, hd]
    by_cases hc_lt : c = '<'
    · -- a "<…" placement
      subst hc_lt
      have hlt : startsWithChar e.Placement '<' = true := by simp [hswlt]
      have hgt : startsWithChar e.Placement '>' = false := by simp [hswgt]
      by_cases hr : rest = []
      · -- "<": move to the very front
        subst hr
        have hanch : restOfPlacement e.Placement = "" := by rw [hrest]
        have hL : sortStep (a ++ y :: b) e = y :: (a ++ b) := by
          simp only [sortStep, hlt, hgt, hanch, if_true, Bool.false_eq_true,
            if_false, hidx, Option.getD_some]
          exact move_to_front a y b
        have hR : specStep (a ++ y :: b) e = y :: (a ++ b) := by
          simp only [specStep, hfind, hlt, hanch, if_true]
          rw [hrem]
        rw [hL, hR]
      · have hne : ¬ (String.mk rest = "") := fun h =>
          hr ((string_mk_eq_empty_iff rest).1 h)
        by_cases hself : String.mk rest = e.Plugin
        · -- "<self": a no-op
          have hanchidx : firstIdx (fun s => s.Plugin == String.mk rest)
              (a ++ y :: b) = some a.length := by rw [hself]; exact hidx
          have hL : sortStep (a ++ y :: b) e = a ++ y :: b := by
            simp only [sortStep, hlt, hgt, hrest, if_true, Bool.false_eq_true,
              if_false, if_neg hne, hanchidx, hidx, Option.getD_some]
            exact move_self_idx _ _
          have hR : specStep (a ++ y :: b) e = a ++ y :: b := by
            simp only [specStep, hfind, hlt, hrest, if_true, if_neg hne,
              if_pos hself]
          rw [hL, hR]
        · by_cases hmemq : String.mk rest ∈
              ((a ++ y :: b).map (fun s => s.Plugin))
          · -- "<X" with X present (and X not the entry's own owner)
            rcases List.mem_map.1 hmemq with ⟨z, hzw, hzq⟩
            have hcont : containsName (String.mk rest) (a ++ y :: b) = true :=
              (containsName_iff _ _).2 hmemq
            rcases List.mem_append.1 hzw with hza | hzyb
            · -- the anchor currently sits before the entry
              rcases List.append_of_mem hza with ⟨cc, d, rfl⟩
              have hw : (cc ++ z :: d) ++ y :: b = cc ++ z :: (d ++ y :: b) := by
                simp
              have hnd2 : ((cc ++ z :: (d ++ y :: b)).map
                  (fun s => s.Plugin)).Nodup := hw ▸ hnd
              have hfrq := nodup_split_names hnd2
              have hcn : ∀ u ∈ cc, u.Plugin ≠ String.mk rest := fun u hu =>
                hzq ▸ hfrq.1 u hu
              have hfq : firstIdx (fun s => s.Plugin == String.mk rest)
                  ((cc ++ z :: d) ++ y :: b) = some cc.length := by
                rw [hw]
                exact firstIdx_split (d ++ y :: b) hcn hzq
              have hlen1 : (cc ++ z :: d).length = cc.length + 1 + d.length := by
                have e1 := List.length_append cc (z :: d)
                have e2 := List.length_cons z d
                omega
              have hL : sortStep ((cc ++ z :: d) ++ y :: b) e =
                  cc ++ y :: z :: (d ++ b) := by
                simp only [sortStep, hlt, hgt, hrest, if_true,
                  Bool.false_eq_true, if_false, if_neg hne, hfq, hidx,
                  Option.getD_some]
                rw [hw, hlen1]
                exact move_bwd_before cc z d y b
              have hab : (cc ++ z :: d) ++ b = cc ++ z :: (d ++ b) := by simp
              have hR : specStep ((cc ++ z :: d) ++ y :: b) e =
                  cc ++ y :: z :: (d ++ b) := by
                simp only [specStep, hfind, hlt, hrest, if_true, if_neg hne,
                  if_neg hself, hcont, hrem]
                rw [hab]
                exact insertBeforeName_split y (d ++ b) hcn hzq
              rw [hL, hR]
            · -- the anchor currently sits after the entry
              have hzb : z ∈ b := by
                rcases List.mem_cons.1 hzyb with hzy | hzb
                · exfalso
                  apply hself
                  rw [← hzq, hzy]
                  exact hyn
                · exact hzb
              rcases List.append_of_mem hzb with ⟨cc, d, rfl⟩
              have hw : a ++ y :: (cc ++ z :: d) = (a ++ y :: cc) ++ z :: d := by
                simp
              have hnd2 : (((a ++ y :: cc) ++ z :: d).map
                  (fun s => s.Plugin)).Nodup := hw ▸ hnd
              have hfrq := nodup_split_names hnd2
              have hacn : ∀ u ∈ a ++ y :: cc, u.Plugin ≠ String.mk rest :=
                fun u hu => hzq ▸ hfrq.1 u hu
              have hfq : firstIdx (fun s => s.Plugin == String.mk rest)
                  (a ++ y :: (cc ++ z :: d)) = some (a.length + 1 + cc.length) := by
                rw [hw]
                have hlen2 : (a ++ y :: cc).length = a.length + 1 + cc.length := by
                  have e1 := List.length_append a (y :: cc)
                  have e2 := List.length_cons y cc
                  omega
                rw [← hlen2]
                exact firstIdx_split d hacn hzq
              have hL : sortStep (a ++ y :: (cc ++ z :: d)) e =
                  a ++ (cc ++ y :: z :: d) := by
                simp only [sortStep, hlt, hgt, hrest, if_true,
                  Bool.false_eq_true, if_false, if_neg hne, hfq, hidx,
                  Option.getD_some]
                exact move_fwd_before a y cc z d
              have hacn2 : ∀ u ∈ a ++ cc, u.Plugin ≠ String.mk rest := by
                intro u hu
                rcases List.mem_append.1 hu with h | h
                · exact hacn u (List.mem_append.2 (Or.inl h))
                · exact hacn u (List.mem_append.2 (Or.inr (List.mem_cons.2
                    (Or.inr h))))
              have hR : specStep (a ++ y :: (cc ++ z :: d)) e =
                  a ++ (cc ++ y :: z :: d) := by
                simp only [specStep, hfind, hlt, hrest, if_true, if_neg hne,
                  if_neg hself, hcont, hrem]
                have hshape : a ++ (cc ++ z :: d) = (a ++ cc) ++ z :: d := by
                  simp
                rw [hshape, insertBeforeName_split y d hacn2 hzq]
                simp
              rw [hL, hR]
          · -- "<X" with X absent: silently ignored
            have hfq : firstIdx (fun s => s.Plugin == String.mk rest)
                (a ++ y :: b) = none :=
              firstIdx_none fun z hz hzq => hmemq
                (hzq ▸ List.mem_map_of_mem (fun s => s.Plugin) hz)
            have hcont : containsName (String.mk rest) (a ++ y :: b) = false :=
              containsName_false fun z hz hzq => hmemq
                (hzq ▸ List.mem_map_of_mem (fun s => s.Plugin) hz)
            have hL : sortStep (a ++ y :: b) e = a ++ y :: b := by
              simp only [sortStep, hlt, hgt, hrest, if_true,
                Bool.false_eq_true, if_false, if_neg hne, hfq, hidx,
                Option.getD_some]
              exact move_self_idx _ _
            have hR : specStep (a ++ y :: b) e = a ++ y :: b := by
              simp only [specStep, hfind, hlt, hrest, if_true, if_neg hne,
                if_neg hself, hcont, Bool.false_eq_true, if_false]
            rw [hL, hR]
    · by_cases hc_gt : c = '>'
      · -- a ">…" placement
        subst hc_gt
        have hlt : startsWithChar e.Placement '<' = false := by
          simp [hswlt]
        have hgt : startsWithChar e.Placement '>' = true := by simp [hswgt]
        by_cases hr : rest = []
        · -- ">": move to the very end
          subst hr
          have hanch : restOfPlacement e.Placement = "" := by rw [hrest]
          have hL : sortStep (a ++ y :: b) e = a ++ (b ++ [y]) := by
            simp only [sortStep, hlt, hgt, hanch, if_true, Bool.false_eq_true,
              if_false, hidx, Option.getD_some]
            exact move_to_end a y b
          have hR : specStep (a ++ y :: b) e = a ++ (b ++ [y]) := by
            simp only [specStep, hfind, hlt, hgt, hanch, if_true,
              Bool.false_eq_true, if_false]
            rw [hrem]
            simp
          rw [hL, hR]
        · have hne : ¬ (String.mk rest = "") := fun h =>
            hr ((string_mk_eq_empty_iff rest).1 h)
          by_cases hself : String.mk rest = e.Plugin
          · -- ">self": a no-op
            have hanchidx : firstIdx (fun s => s.Plugin == String.mk rest)
                (a ++ y :: b) = some a.length := by rw [hself]; exact hidx
            have hL : sortStep (a ++ y :: b) e = a ++ y :: b := by
              simp only [sortStep, hlt, hgt, hrest, if_true,
                Bool.false_eq_true, if_false, if_neg hne, hanchidx, hidx,
                Option.getD_some]
              exact move_succ (get_split a y b)
            have hR : specStep (a ++ y :: b) e = a ++ y :: b := by
              simp only [specStep, hfind, hlt, hgt, hrest, if_true,
                Bool.false_eq_true, if_false, if_neg hne, if_pos hself]
            rw [hL, hR]
          · by_cases hmemq : String.mk rest ∈
                ((a ++ y :: b).map (fun s => s.Plugin))
            · -- ">X" with X present (and X not the entry's own owner)
              rcases List.mem_map.1 hmemq with ⟨z, hzw, hzq⟩
              have hcont : containsName (String.mk rest) (a ++ y :: b) =
                  true := (containsName_iff _ _).2 hmemq
              rcases List.mem_append.1 hzw with hza | hzyb
              · -- the anchor currently sits before the entry
                rcases List.append_of_mem hza with ⟨cc, d, rfl⟩
                have hw : (cc ++ z :: d) ++ y :: b =
                    cc ++ z :: (d ++ y :: b) := by simp
                have hnd2 : ((cc ++ z :: (d ++ y :: b)).map
                    (fun s => s.Plugin)).Nodup := hw ▸ hnd
                have hfrq := nodup_split_names hnd2
                have hcn : ∀ u ∈ cc, u.Plugin ≠ String.mk rest := fun u hu =>
                  hzq ▸ hfrq.1 u hu
                have hfq : firstIdx (fun s => s.Plugin == String.mk rest)
                    ((cc ++ z :: d) ++ y :: b) = some cc.length := by
                  rw [hw]
                  exact firstIdx_split (d ++ y :: b) hcn hzq
                have hlen1 : (cc ++ z :: d).length =
                    cc.length + 1 + d.length := by
                  have e1 := List.length_append cc (z :: d)
                  have e2 := List.length_cons z d
                  omega
                have hL : sortStep ((cc ++ z :: d) ++ y :: b) e =
                    cc ++ z :: y :: (d ++ b) := by
                  simp only [sortStep, hlt, hgt, hrest, if_true,
                    Bool.false_eq_true, if_false, if_neg hne, hfq, hidx,
                    Option.getD_some]
                  rw [hw, hlen1]
                  exact move_bwd_after cc z d y b
                have hab : (cc ++ z :: d) ++ b = cc ++ z :: (d ++ b) := by simp
                have hR : specStep ((cc ++ z :: d) ++ y :: b) e =
                    cc ++ z :: y :: (d ++ b) := by
                  simp only [specStep, hfind, hlt, hgt, hrest, if_true,
                    Bool.false_eq_true, if_false, if_neg hne, if_neg hself,
                    hcont, hrem]
                  rw [hab]
                  exact insertAfterName_split y (d ++ b) hcn hzq
                rw [hL, hR]
              · -- the anchor currently sits after the entry
                have hzb : z ∈ b := by
                  rcases List.mem_cons.1 hzyb with hzy | hzb
                  · exfalso
                    apply hself
                    rw [← hzq, hzy]
                    exact hyn
                  · exact hzb
                rcases List.append_of_mem hzb with ⟨cc, d, rfl⟩
                have hw : a ++ y :: (cc ++ z :: d) = (a ++ y :: cc) ++ z :: d := by
                  simp
                have hnd2 : (((a ++ y :: cc) ++ z :: d).map
                    (fun s => s.Plugin)).Nodup := hw ▸ hnd
                have hfrq := nodup_split_names hnd2
                have hacn : ∀ u ∈ a ++ y :: cc, u.Plugin ≠ String.mk rest :=
                  fun u hu => hzq ▸ hfrq.1 u hu
                have hfq : firstIdx (fun s => s.Plugin == String.mk rest)
                    (a ++ y :: (cc ++ z :: d)) =
                    some (a.length + 1 + cc.length) := by
                  rw [hw]
                  have hlen2 : (a ++ y :: cc).length =
                      a.length + 1 + cc.length := by
                    have e1 := List.length_append a (y :: cc)
                    have e2 := List.length_cons y cc
                    omega
                  rw [← hlen2]
                  exact firstIdx_split d hacn hzq
                have hL : sortStep (a ++ y :: (cc ++ z :: d)) e =
                    a ++ (cc ++ z :: y :: d) := by
                  simp only [sortStep, hlt, hgt, hrest, if_true,
                    Bool.false_eq_true, if_false, if_neg hne, hfq, hidx,
                    Option.getD_some]
                  exact move_fwd_after a y cc z d
                have hacn2 : ∀ u ∈ a ++ cc, u.Plugin ≠ String.mk rest := by
                  intro u hu
                  rcases List.mem_append.1 hu with h | h
                  · exact hacn u (List.mem_append.2 (Or.inl h))
                  · exact hacn u (List.mem_append.2 (Or.inr (List.mem_cons.2
                      (Or.inr h))))
                have hR : specStep (a ++ y :: (cc ++ z :: d)) e =
                    a ++ (cc ++ z :: y :: d) := by
                  simp only [specStep, hfind, hlt, hgt, hrest, if_true,
                    Bool.false_eq_true, if_false, if_neg hne, if_neg hself,
                    hcont, hrem]
                  have hshape : a ++ (cc ++ z :: d) = (a ++ cc) ++ z :: d := by
                    simp
                  rw [hshape, insertAfterName_split y d hacn2 hzq]
                  simp
                rw [hL, hR]
            · -- ">X" with X absent: silently ignored
              have hfq : firstIdx (fun s => s.Plugin == String.mk rest)
                  (a ++ y :: b) = none :=
                firstIdx_none fun z hz hzq => hmemq
                  (hzq ▸ List.mem_map_of_mem (fun s => s.Plugin) hz)
              have hcont : containsName (String.mk rest) (a ++ y :: b) =
                  false := containsName_false fun z hz hzq => hmemq
                  (hzq ▸ List.mem_map_of_mem (fun s => s.Plugin) hz)
              have hL : sortStep (a ++ y :: b) e = a ++ y :: b := by
                simp only [sortStep, hlt, hgt, hrest, if_true,
                  Bool.false_eq_true, if_false, if_neg hne, hfq, hidx,
                  Option.getD_some]
                exact move_self_idx _ _
              have hR : specStep (a ++ y :: b) e = a ++ y :: b := by
                simp only [specStep, hfind, hlt, hgt, hrest, if_true,
                  Bool.false_eq_true, if_false, if_neg hne, if_neg hself,
                  hcont]
              rw [hL, hR]
      · -- a placement outside the grammar: treated like no placement
        have hlt : startsWithChar e.Placement '<' = false := by
          simp [hswlt, hc_lt]
        have hgt : startsWithChar e.Placement '>' = false := by
          simp [hswgt, hc_gt]
        have hL : sortStep (a ++ y :: b) e = a ++ y :: b := by
          simp only [sortStep, hlt, hgt, Bool.false_eq_true, if_false]
          exact move_self_idx _ _
        have hR : specStep (a ++ y :: b) e = a ++ y :: b := by
          simp only [specStep, hfind, hlt, hgt, Bool.false_eq_true, if_false]
        rw [hL, hR]

/-! ## The whole resolver agrees with the spec's description -/

theorem sortStep_perm {T : Type} (w : List (Symbol T)) (e : Symbol T) :
    List.Perm (sortStep w e) w := by
  unfold sortStep
  exact move_perm w _ _

theorem foldl_sortStep_perm {T : Type} :
    ∀ (todo acc : List (Symbol T)),
      List.Perm (List.foldl sortStep acc todo) acc
  | [], acc => List.Perm.refl acc
  | x :: todo, acc => by
    simp only [List.foldl_cons]
    exact (foldl_sortStep_perm todo (sortStep acc x)).trans (sortStep_perm acc x)

/-- The resolved list is a permutation of the registered entries. -/
theorem sortSymbols_perm {T : Type} (l : List (Symbol T)) :
    List.Perm (sortSymbols l) l := by
  simp only [sortSymbols]
  exact (foldl_sortStep_perm _ _).trans (List.perm_insertionSort byName l)

theorem foldl_sortStep_eq_specStep {T : Type} :
    ∀ (todo acc : List (Symbol T)),
      (acc.map (fun s => s.Plugin)).Nodup →
      (∀ x ∈ todo, x.Plugin ∈ acc.map (fun s => s.Plugin)) →
      List.foldl sortStep acc todo = List.foldl specStep acc todo
  | [], _, _, _ => rfl
  | x :: todo, acc, hnd, hmem => by
    have hstep : sortStep acc x = specStep acc x :=
      sortStep_eq_specStep x hnd (hmem x (by simp))
    have hpermn : List.Perm ((sortStep acc x).map (fun s => s.Plugin))
        (acc.map (fun s => s.Plugin)) := (sortStep_perm acc x).map _
    simp only [List.foldl_cons]
    rw [← hstep]
    exact foldl_sortStep_eq_specStep todo (sortStep acc x)
      (hpermn.nodup_iff.2 hnd)
      (fun z hz => hpermn.mem_iff.2 (hmem z (by simp [hz])))

/-- Two lists of symbols that are permutations of each other, both sorted by
plugin name, with pairwise-distinct names, are equal (the base sort of a
name-unique entry set is uniquely determined, whatever sorting algorithm
`sort.Slice` uses). -/
theorem sorted_names_unique {T : Type} :
    ∀ {l₁ l₂ : List (Symbol T)}, List.Perm l₁ l₂ →
      l₁.Pairwise byName → l₂.Pairwise byName →
      (l₁.map (fun s => s.Plugin)).Nodup → l₁ = l₂ := by
  intro l₁
  induction l₁ with
  | nil =>
    intro l₂ hp _ _ _
    exact hp.nil_eq
  | cons x t ih =>
    intro l₂ hp hs₁ hs₂ hnd
    cases l₂ with
    | nil => exact absurd hp.eq_nil (by simp)
    | cons z t₂ =>
      have hx2 : x ∈ z :: t₂ := hp.mem_iff.1 (by simp)
      have hz1 : z ∈ x :: t := hp.mem_iff.2 (by simp)
      rw [List.pairwise_cons] at hs₁ hs₂
      have hxz : x.Plugin = z.Plugin := by
        have hle1 : x.Plugin.data ≤ z.Plugin.data := by
          rcases List.mem_cons.1 hz1 with h | h
          · subst h
            exact le_rfl
          · exact hs₁.1 z h
        have hle2 : z.Plugin.data ≤ x.Plugin.data := by
          rcases List.mem_cons.1 hx2 with h | h
          · subst h
            exact le_rfl
          · exact hs₂.1 x h
        exact string_data_inj (le_antisymm hle1 hle2)
      have hzx : z = x := by
        rcases List.mem_cons.1 hz1 with h | h
        · exact h
        · exfalso
          rw [List.map_cons, List.nodup_cons] at hnd
          refine hnd.1 ?_
          rw [hxz]
          exact List.mem_map_of_mem (fun s => s.Plugin) h
      subst hzx
      have hp' : List.Perm t t₂ := hp.cons_inv
      rw [List.map_cons, List.nodup_cons] at hnd
      rw [ih hp' hs₁.2 hs₂.2 hnd.2]

/-- On entry sets with pairwise-distinct names, the base sort is invariant
under permutations of its input. -/
theorem insertionSort_eq_of_perm {T : Type} {l₁ l₂ : List (Symbol T)}
    (hp : List.Perm l₁ l₂) (hnd : (l₁.map (fun s => s.Plugin)).Nodup) :
    l₁.insertionSort byName = l₂.insertionSort byName := by
  apply sorted_names_unique
  · exact (List.perm_insertionSort byName l₁).trans
      (hp.trans (List.perm_insertionSort byName l₂).symm)
  · exact List.sorted_insertionSort byName l₁
  · exact List.sorted_insertionSort byName l₂
  · exact (((List.perm_insertionSort byName l₁).map
      (fun s => s.Plugin)).nodup_iff).2 hnd

/-! ## No-op directives -/

/-- A placement that starts with neither `'<'` nor `'>'` (including the empty
placement) never repositions anything: the entry is moved to its own index. -/
theorem sortStep_no_directive {T : Type} (w : List (Symbol T)) (e : Symbol T)
    (hlt : startsWithChar e.Placement '<' = false)
    (hgt : startsWithChar e.Placement '>' = false) :
    sortStep w e = w := by
  simp only [sortStep, hlt, hgt, Bool.false_eq_true, if_false]
  exact move_self_idx _ _

/-- A directive that names the entry's own (non-empty) owner repositions the
entry to its own current index: the working list is unchanged. -/
theorem sortStep_self_placement {T : Type} (w : List (Symbol T)) (e : Symbol T)
    (hne : e.Plugin ≠ "")
    (hp : e.Placement = "<" ++ e.Plugin ∨ e.Placement = ">" ++ e.Plugin) :
    sortStep w e = w := by
  rcases hp with hp | hp
  · have hd : e.Placement.data = '<' :: e.Plugin.data := by
      rw [hp]
      simp [String.data_append]
    have hlt : startsWithChar e.Placement '<' = true := by
      simp [startsWithChar, hd]
    have hgt : startsWithChar e.Placement '>' = false := by
      simp [startsWithChar, hd]
    have hrest : restOfPlacement e.Placement = e.Plugin := by
      simp [restOfPlacement, hd, string_mk_data]
    cases hq : firstIdx (fun s => s.Plugin == e.Plugin) w with
    | none =>
      simp only [sortStep, hlt, hgt, hrest, if_true, Bool.false_eq_true,
        if_false, if_neg hne, hq, Option.getD_none]
      exact move_self_idx _ _
    | some i =>
      simp only [sortStep, hlt, hgt, hrest, if_true, Bool.false_eq_true,
        if_false, if_neg hne, hq, Option.getD_some]
      exact move_self_idx _ _
  · have hd : e.Placement.data = '>' :: e.Plugin.data := by
      rw [hp]
      simp [String.data_append]
    have hlt : startsWithChar e.Placement '<' = false := by
      simp [startsWithChar, hd]
    have hgt : startsWithChar e.Placement '>' = true := by
      simp [startsWithChar, hd]
    have hrest : restOfPlacement e.Placement = e.Plugin := by
      simp [restOfPlacement, hd, string_mk_data]
    cases hq : firstIdx (fun s => s.Plugin == e.Plugin) w with
    | none =>
      simp only [sortStep, hlt, hgt, hrest, if_true, Bool.false_eq_true,
        if_false, if_neg hne, hq, Option.getD_none]
      exact move_self_idx _ _
    | some i =>
      simp only [sortStep, hlt, hgt, hrest, if_true, Bool.false_eq_true,
        if_false, if_neg hne, hq, Option.getD_some]
      rcases firstIdx_get hq with ⟨x, hx, -⟩
      exact move_succ hx

theorem foldl_sortStep_id {T : Type} :
    ∀ (todo acc : List (Symbol T)),
      (∀ x ∈ todo, ∀ w : List (Symbol T), sortStep w x = w) →
      List.foldl sortStep acc todo = acc
  | [], _, _ => rfl
  | x :: todo, acc, h => by
    simp only [List.foldl_cons, h x (by simp)]
    exact foldl_sortStep_id todo acc fun z hz => h z (by simp [hz])

/-- With no placement directives at all, the resolver is exactly the base
lexicographic sort. -/
theorem sortSymbols_of_no_placement {T : Type} (l : List (Symbol T))
    (h : ∀ e ∈ l, e.Placement = "") :
    sortSymbols l = l.insertionSort byName := by
  simp only [sortSymbols]
  apply foldl_sortStep_id
  intro x hx w
  have hx' : x.Placement = "" := h x ((List.mem_insertionSort byName).1 hx)
  apply sortStep_no_directive
  · rw [hx']
    rfl
  · rw [hx']
    rfl

theorem map_plugin_insertionSort {T : Type} (l : List (Symbol T)) :
    (l.insertionSort byName).map (fun s => s.Plugin) =
      (l.map (fun s => s.Plugin)).insertionSort byNameStr :=
  List.map_insertionSort byName byNameStr (fun s => s.Plugin) l
    fun _ _ _ _ => Iff.rfl

/-! ## The resolver only reads plugin names and placements: it commutes with
entrywise maps that preserve the plugin name and whose placement changes are
per-step no-ops -/

theorem firstIdx_map_name {T : Type} (f : Symbol T → Symbol T)
    (hf : ∀ x, (f x).Plugin = x.Plugin) (n : String) :
    ∀ w : List (Symbol T),
      firstIdx (fun s => s.Plugin == n) (w.map f) =
        firstIdx (fun s => s.Plugin == n) w
  | [] => rfl
  | x :: xs => by
    simp only [List.map_cons, firstIdx_cons, hf x,
      firstIdx_map_name f hf n xs]

theorem move_map {α : Type} (f : α → α) (s : List α) (fr tgt : Nat) :
    move (s.map f) fr tgt = (move s fr tgt).map f := by
  by_cases h0 : fr = tgt
  · rw [h0, move_self_idx, move_self_idx]
  cases hget : s[fr]? with
  | none =>
    have hget2 : (s.map f)[fr]? = none := by simp [hget]
    simp only [move, hget, hget2, if_neg h0]
  | some x =>
    have hget2 : (s.map f)[fr]? = some (f x) := by simp [hget]
    by_cases hlt : fr < tgt
    · simp only [move, hget, hget2, if_neg h0, if_pos hlt, List.map_append,
        List.map_cons, List.map_take, List.map_drop]
    · simp only [move, hget, hget2, if_neg h0, if_neg hlt, List.map_append,
        List.map_cons, List.map_take, List.map_drop]

theorem sortStep_map {T : Type} (f : Symbol T → Symbol T)
    (hf : ∀ x, (f x).Plugin = x.Plugin) (w : List (Symbol T)) (e : Symbol T) :
    sortStep (w.map f) e = (sortStep w e).map f := by
  simp only [sortStep, firstIdx_map_name f hf, List.length_map, move_map]

theorem foldl_sortStep_map {T : Type} (f : Symbol T → Symbol T)
    (hf : ∀ x, (f x).Plugin = x.Plugin) :
    ∀ (todo acc : List (Symbol T)),
      (∀ x ∈ todo, ∀ w : List (Symbol T), sortStep w (f x) = sortStep w x) →
      List.foldl sortStep (acc.map f) (todo.map f) =
        (List.foldl sortStep acc todo).map f
  | [], _, _ => rfl
  | x :: todo, acc, h => by
    simp only [List.map_cons, List.foldl_cons]
    rw [h x (by simp) (acc.map f), sortStep_map f hf acc x]
    exact foldl_sortStep_map f hf todo (sortStep acc x)
      (fun z hz => h z (by simp [hz]))

theorem insertionSort_map_name {T : Type} (f : Symbol T → Symbol T)
    (hf : ∀ x, (f x).Plugin = x.Plugin) (l : List (Symbol T)) :
    (l.map f).insertionSort byName = (l.insertionSort byName).map f :=
  (List.map_insertionSort byName byName f l fun a _ b _ => by
    simp [byName, hf a, hf b]).symm

theorem sortSymbols_map {T : Type} (f : Symbol T → Symbol T)
    (hf : ∀ x, (f x).Plugin = x.Plugin) (l : List (Symbol T))
    (h : ∀ x ∈ l, ∀ w : List (Symbol T), sortStep w (f x) = sortStep w x) :
    sortSymbols (l.map f) = (sortSymbols l).map f := by
  simp only [sortSymbols]
  rw [insertionSort_map_name f hf]
  exact foldl_sortStep_map f hf _ _
    fun x hx w => h x ((List.mem_insertionSort byName).1 hx) w

theorem unplace_plugin {T : Type} (n : String) (x : Symbol T) :
    (unplace n x).Plugin = x.Plugin := by
  by_cases hx : x.Plugin = n <;> simp [unplace, hx]

theorem map_plugin_of_map_name_preserving {T : Type} (f : Symbol T → Symbol T)
    (hf : ∀ x, (f x).Plugin = x.Plugin) (l : List (Symbol T)) :
    (l.map f).map (fun s => s.Plugin) = l.map (fun s => s.Plugin) := by
  rw [List.map_map]
  apply List.map_congr_left
  intro a _
  exact hf a

/-! ## The claims -/

/-- C1: For every list of entries with unique owner names, the Placement
Resolver first applies the base lexicographic sort and then processes each
entry's placement directive one at a time in ascending owner-name order, each
directive repositioning only its own entry in the working list: `"<"` moves
the entry to the very front, `">"` to the very end, `"<X"` to immediately
before the entry currently owned by `X`, and `">X"` to immediately after it,
the anchor `X` being looked up in the current (already partially
repositioned) list; if no entry with owner `X` exists, the entry keeps its
current position and no error is raised. Formally: `sortSymbols` (the code)
coincides with `specResolve` (the resolver transcribed from the spec's
words). -/
theorem C1_resolver_implements_spec {T : Type} (l : List (Symbol T))
    (hnd : (l.map (fun s => s.Plugin)).Nodup) :
    sortSymbols l = specResolve l := by
  simp only [sortSymbols, specResolve]
  have hnds : ((l.insertionSort byName).map (fun s => s.Plugin)).Nodup :=
    (((List.perm_insertionSort byName l).map (fun s => s.Plugin)).nodup_iff).2
      hnd
  exact foldl_sortStep_eq_specStep _ _ hnds fun x hx =>
    List.mem_map_of_mem _ hx

theorem C1_resolver_implements_spec_witness :
    (([sym "beta" "", sym "gamma" "", sym "alpha" "<gamma"].map
      (fun s => s.Plugin)).Nodup) ∧
    sortSymbols [sym "beta" "", sym "gamma" "", sym "alpha" "<gamma"] =
      specResolve [sym "beta" "", sym "gamma" "", sym "alpha" "<gamma"] :=
  ⟨by decide, C1_resolver_implements_spec _ (by decide)⟩

/-- C2: For every set of registered entries none of which carries a placement
directive, the resolved order served by the read operations is exactly the
entries' owner names sorted ascending by ordinary lexicographic
(byte/codepoint) comparison, and the resolved list is a permutation of the
registered entries. -/
theorem C2_lexicographic_default {T : Type} (l : List (Symbol T))
    (h : ∀ e ∈ l, e.Placement = "") :
    PluginGroup.Plugins ⟨false, l⟩ =
      (l.map (fun s => s.Plugin)).insertionSort byNameStr ∧
    List.Perm (PluginGroup.lock (⟨false, l⟩ : PluginGroup T)).symbols l := by
  have hlock : (PluginGroup.lock (⟨false, l⟩ : PluginGroup T)).symbols =
      sortSymbols l := by
    simp [PluginGroup.lock]
  constructor
  · simp only [PluginGroup.Plugins]
    rw [hlock, sortSymbols_of_no_placement l h, map_plugin_insertionSort]
  · rw [hlock]
    exact sortSymbols_perm l

theorem C2_lexicographic_default_witness :
    (∀ e ∈ [sym "beta" "", sym "gamma" "", sym "alpha" ""],
      e.Placement = "") ∧
    (PluginGroup.Plugins ⟨false, [sym "beta" "", sym "gamma" "", sym "alpha" ""]⟩ =
      ([sym "beta" "", sym "gamma" "", sym "alpha" ""].map
        (fun s => s.Plugin)).insertionSort byNameStr ∧
    List.Perm (PluginGroup.lock
      (⟨false, [sym "beta" "", sym "gamma" "", sym "alpha" ""]⟩ :
        PluginGroup Unit)).symbols
      [sym "beta" "", sym "gamma" "", sym "alpha" ""]) ∧
    PluginGroup.Plugins
      (⟨false, [sym "beta" "", sym "gamma" "", sym "alpha" ""]⟩ :
        PluginGroup Unit) = ["alpha", "beta", "gamma"] :=
  ⟨by decide, C2_lexicographic_default _ (by decide), by decide⟩

/-- C3: The Placement Resolver is deterministic and idempotent: for every
entry set with unique owner names, running the sort on a list it has already
resolved reproduces the identical order, and the result is invariant under
the input permutation it starts from. -/
theorem C3_resolver_idempotent {T : Type} (l : List (Symbol T))
    (hnd : (l.map (fun s => s.Plugin)).Nodup) :
    sortSymbols (sortSymbols l) = sortSymbols l ∧
    ∀ l', List.Perm l l' → sortSymbols l' = sortSymbols l := by
  have hinv : ∀ l', List.Perm l l' → sortSymbols l' = sortSymbols l := by
    intro l' hp
    have hsorteq : l'.insertionSort byName = l.insertionSort byName :=
      insertionSort_eq_of_perm hp.symm (((hp.map (fun s => s.Plugin)).nodup_iff).1 hnd)
    conv_lhs => rw [show sortSymbols l' =
      (l'.insertionSort byName).foldl sortStep (l'.insertionSort byName)
      from rfl]
    rw [hsorteq]
    rfl
  exact ⟨hinv (sortSymbols l) (sortSymbols_perm l).symm, hinv⟩

theorem C3_resolver_idempotent_witness :
    (([sym "alpha" ">gamma", sym "beta" "", sym "gamma" ""].map
      (fun s => s.Plugin)).Nodup) ∧
    (sortSymbols (sortSymbols
        [sym "alpha" ">gamma", sym "beta" "", sym "gamma" ""]) =
      sortSymbols [sym "alpha" ">gamma", sym "beta" "", sym "gamma" ""] ∧
    ∀ l', List.Perm [sym "alpha" ">gamma", sym "beta" "", sym "gamma" ""] l' →
      sortSymbols l' =
        sortSymbols [sym "alpha" ">gamma", sym "beta" "", sym "gamma" ""]) :=
  ⟨by decide, C3_resolver_idempotent _ (by decide)⟩

/-- C4: A directive naming the entry's own (non-empty) owner is a no-op: the
entry is repositioned to its own current index, the working list is
unchanged, and the final order equals the order obtained as if that entry had
no placement; in particular `{beta:"<beta", gamma:"", alpha:""}` yields the
plain lexicographic order `[alpha, beta, gamma]`. -/
theorem C4_self_placement_noop {T : Type} (l : List (Symbol T)) (n : String)
    (hn : n ≠ "")
    (hself : ∀ x ∈ l, x.Plugin = n →
      x.Placement = "<" ++ n ∨ x.Placement = ">" ++ n) :
    (∀ (w : List (Symbol T)) (e : Symbol T), e.Plugin = n →
      (e.Placement = "<" ++ n ∨ e.Placement = ">" ++ n) → sortStep w e = w) ∧
    (sortSymbols (l.map (unplace n))).map (fun s => s.Plugin) =
      (sortSymbols l).map (fun s => s.Plugin) ∧
    (sortSymbols [sym "beta" "<beta", sym "gamma" "", sym "alpha" ""]).map
      (fun s => s.Plugin) = ["alpha", "beta", "gamma"] := by
  have hpart1 : ∀ (w : List (Symbol T)) (e : Symbol T), e.Plugin = n →
      (e.Placement = "<" ++ n ∨ e.Placement = ">" ++ n) → sortStep w e = w := by
    intro w e he hp
    apply sortStep_self_placement w e
    · rw [he]
      exact hn
    · rw [he]
      exact hp
  have hstep : ∀ x ∈ l, ∀ w : List (Symbol T),
      sortStep w (unplace n x) = sortStep w x := by
    intro x hx w
    by_cases hxn : x.Plugin = n
    · have hu : (unplace n x).Placement = "" := by simp [unplace, hxn]
      have h1 : sortStep w (unplace n x) = w := by
        apply sortStep_no_directive
        · rw [hu]
          rfl
        · rw [hu]
          rfl
      have h2 : sortStep w x = w := hpart1 w x hxn (hself x hx hxn)
      rw [h1, h2]
    · have hux : unplace n x = x := by simp [unplace, hxn]
      rw [hux]
  refine ⟨hpart1, ?_, by decide⟩
  rw [sortSymbols_map (unplace n) (unplace_plugin n) l hstep,
    map_plugin_of_map_name_preserving (unplace n) (unplace_plugin n)]

theorem C4_self_placement_noop_witness :
    (("beta" : String) ≠ "" ∧
      (∀ x ∈ [sym "beta" "<beta", sym "gamma" "", sym "alpha" ""],
        x.Plugin = "beta" →
        x.Placement = "<" ++ "beta" ∨ x.Placement = ">" ++ "beta")) ∧
    ((∀ (w : List (Symbol Unit)) (e : Symbol Unit), e.Plugin = "beta" →
      (e.Placement = "<" ++ "beta" ∨ e.Placement = ">" ++ "beta") →
      sortStep w e = w) ∧
    (sortSymbols ([sym "beta" "<beta", sym "gamma" "", sym "alpha" ""].map
      (unplace "beta"))).map (fun s => s.Plugin) =
      (sortSymbols [sym "beta" "<beta", sym "gamma" "", sym "alpha" ""]).map
        (fun s => s.Plugin) ∧
    (sortSymbols [sym "beta" "<beta", sym "gamma" "", sym "alpha" ""]).map
      (fun s => s.Plugin) = ["alpha", "beta", "gamma"]) :=
  ⟨⟨by decide, by decide⟩,
    C4_self_placement_noop _ "beta" (by decide) (by decide)⟩

/-- C5 counterexample: the claim "a second registration with an
already-present owner fails and leaves the group unchanged" is false for the
generic (third-generation) `Register`: registering owner "a" into a group
that already holds owner "a" succeeds and appends a second entry. -/
theorem C5_duplicate_owner_counterexample :
    (PluginGroup.Register (⟨true, [sym "a" ""]⟩ : PluginGroup Unit)
        (sym "a" "")).symbols = [sym "a" "", sym "a" ""] ∧
    (PluginGroup.Register (⟨true, [sym "a" ""]⟩ : PluginGroup Unit)
        (sym "a" "")).symbols ≠ [sym "a" ""] := by
  constructor
  · rfl
  · decide

/-- C5 amended: the first-generation `registerPlugin` rejects a duplicate
owner with a panic before mutating anything, so the group's prior entries are
unchanged; the generic (third-generation) `Register` performs no duplicate
check and appends the duplicate entry. -/
theorem C5_duplicate_owner {T : Type} (pg : V1.PluginGroup)
    (pspec : PluginSpec)
    (hdup : pspec.Name ∈ pg.plugins.map (fun p => p.Name)) :
    (∃ msg, V1.registerInGroup pg pspec = Except.error msg) ∧
    (∀ (g : PluginGroup T) (s : Symbol T),
      (PluginGroup.Register g s).symbols = g.symbols ++ [s]) := by
  constructor
  · have hany : pg.plugins.any (fun plug => pspec.Name == plug.Name) = true := by
      rcases List.mem_map.1 hdup with ⟨p, hp, hpn⟩
      exact List.any_eq_true.2 ⟨p, hp, by simp [hpn]⟩
    refine ⟨"duplicate plugin name registration " ++ pspec.Name, ?_⟩
    simp only [V1.registerInGroup, hany, if_true]
  · intro g s
    rfl

theorem C5_duplicate_owner_witness :
    (("a" : String) ∈ ([⟨"a", "g", ""⟩] : List PluginSpec).map
      (fun p => p.Name)) ∧
    ((∃ msg, V1.registerInGroup ⟨"g", false, [⟨"a", "g", ""⟩]⟩
        ⟨"a", "g", "<x"⟩ = Except.error msg) ∧
    (∀ (g : PluginGroup Unit) (s : Symbol Unit),
      (PluginGroup.Register g s).symbols = g.symbols ++ [s])) :=
  ⟨by decide, C5_duplicate_owner ⟨"g", false, [⟨"a", "g", ""⟩]⟩
    ⟨"a", "g", "<x"⟩ (by decide)⟩

/-- C6 counterexample: the claim "after Clear() … its dirty flag is false
(the empty list counts as already resolved)" is false: `Clear` sets
`ordered = false`, i.e. it marks the group dirty. -/
theorem C6_clear_counterexample :
    ¬ ((PluginGroup.Clear (⟨true, [sym "a" ""]⟩ : PluginGroup Unit)).symbols =
        [] ∧
      (PluginGroup.Clear (⟨true, [sym "a" ""]⟩ : PluginGroup Unit)).ordered =
        true) := by
  decide

/-- C6 amended: after `Clear()` the group contains no entries and is marked
UNordered (`ordered = false`, i.e. dirty), so the next read re-sorts the
(empty) list and then serves an empty, clean group. -/
theorem C6_clear {T : Type} (g : PluginGroup T) :
    (g.Clear).symbols = [] ∧ (g.Clear).ordered = false ∧
    (g.Clear).lock.symbols = [] ∧ (g.Clear).lock.ordered = true :=
  ⟨rfl, rfl, rfl, rfl⟩

/-- C7 counterexample: the claim "repeated lookups return the identical Group
object … including for keys under which no plugin was ever registered" is
false for the first-generation `New`: two lookups of the same unregistered
key allocate two distinct group objects (the fresh group is not entered into
the registry map). -/
theorem C7_registry_identity_counterexample :
    (NewV1 ((NewV1 (⟨[], 0⟩ : Registry String) "x").2) "x").1 ≠
      (NewV1 (⟨[], 0⟩ : Registry String) "x").1 := by
  decide

/-- C7 amended: the second-generation `New` and the generic `Group[T]` enter
the freshly created group into the registry, so repeated lookups return the
identical object for every key, registered or not; the first-generation `New`
returns the identical object only for keys present in the registry map (keys
under which some plugin was registered). -/
theorem C7_registry_identity {κ : Type} [DecidableEq κ] (r : Registry κ)
    (k : κ) :
    ((NewV2 ((NewV2 r k).2) k).1 = (NewV2 r k).1) ∧
    (∀ id, lookupKey r.groups k = some id → NewV1 r k = (id, r)) := by
  constructor
  · cases hq : lookupKey r.groups k with
    | some id => simp [NewV2, hq]
    | none => simp [NewV2, hq, lookupKey]
  · intro id hid
    simp [NewV1, hid]

theorem C7_registry_identity_witness :
    (lookupKey (⟨[("g", 5)], 6⟩ : Registry String).groups "g" = some 5) ∧
    (((NewV2 ((NewV2 (⟨[("g", 5)], 6⟩ : Registry String) "g").2) "g").1 =
        (NewV2 (⟨[("g", 5)], 6⟩ : Registry String) "g").1) ∧
    (∀ id, lookupKey (⟨[("g", 5)], 6⟩ : Registry String).groups "g" =
        some id →
      NewV1 (⟨[("g", 5)], 6⟩ : Registry String) "g" =
        (id, (⟨[("g", 5)], 6⟩ : Registry String)))) :=
  ⟨by decide, C7_registry_identity _ _⟩

/-- C8 counterexample: the claim "every sequence-returning query returns a
defensive copy" is false for the first-generation `Plugins()`: it returns the
internal slice itself, so writing through the returned slice changes the
group's internal plugin list. -/
theorem C8_defensive_copy_counterexample :
    ((V1.Plugins 0 (⟨[[⟨"a", "g", ""⟩]]⟩ : SliceHeap PluginSpec)).2.write
        (V1.Plugins 0 (⟨[[⟨"a", "g", ""⟩]]⟩ : SliceHeap PluginSpec)).1
        [⟨"b", "g", ""⟩]).read 0 ≠
      (⟨[[⟨"a", "g", ""⟩]]⟩ : SliceHeap PluginSpec).read 0 := by
  decide

/-- C8 amended: the second-generation `Plugins` and the generic
`PluginsSymbols` return a defensive copy (a freshly allocated backing array),
so writing through the returned slice never changes the group's internal
list; the first-generation `Plugins` hands out the internal slice itself. -/
theorem C8_defensive_copy {α : Type} (h : SliceHeap α) (gid : Nat)
    (l' : List α) (hvalid : gid < h.slices.length) :
    ((V2.Plugins gid h).2.write (V2.Plugins gid h).1 l').read gid =
      h.read gid ∧
    (V2.Plugins gid h).2.read (V2.Plugins gid h).1 = h.read gid := by
  constructor
  · simp only [V2.Plugins, SliceHeap.alloc, SliceHeap.write, SliceHeap.read]
    rw [List.getElem?_set_ne (by omega), List.getElem?_append, if_pos hvalid]
  · simp only [V2.Plugins, SliceHeap.alloc, SliceHeap.read]
    rw [get_split]
    rfl

theorem C8_defensive_copy_witness :
    (0 < (⟨[[⟨"a", "g", ""⟩]]⟩ : SliceHeap PluginSpec).slices.length) ∧
    (((V2.Plugins 0 (⟨[[⟨"a", "g", ""⟩]]⟩ : SliceHeap PluginSpec)).2.write
        (V2.Plugins 0 (⟨[[⟨"a", "g", ""⟩]]⟩ : SliceHeap PluginSpec)).1
        [⟨"b", "g", ""⟩]).read 0 =
      (⟨[[⟨"a", "g", ""⟩]]⟩ : SliceHeap PluginSpec).read 0 ∧
    (V2.Plugins 0 (⟨[[⟨"a", "g", ""⟩]]⟩ : SliceHeap PluginSpec)).2.read
        (V2.Plugins 0 (⟨[[⟨"a", "g", ""⟩]]⟩ : SliceHeap PluginSpec)).1 =
      (⟨[[⟨"a", "g", ""⟩]]⟩ : SliceHeap PluginSpec).read 0) :=
  ⟨by decide, C8_defensive_copy (⟨[[⟨"a", "g", ""⟩]]⟩ : SliceHeap PluginSpec)
    0 ([⟨"b", "g", ""⟩] : List PluginSpec) (by decide)⟩

/-- C9 counterexample: the claim "a value that is neither a function nor an
interface/capability reference is never silently accepted nor silently
dropped" is false for the first-generation `registerPlugin`: a bare symbol of
any other kind (e.g. an int) is skipped by `continue` — the registration
succeeds with an empty symbol map and no panic. -/
theorem C9_invalid_symbol_counterexample :
    V1.buildSymbolMap [V1.V1Symbol.bare Reflect.Kind.Other "x"] =
      Except.ok [] := by
  rfl

/-- C9 amended: the generic `Symbol[T].Validate` panics at registration time
on a nil function symbol, a nil/invalid interface value, and on symbol types
that are neither functions nor interfaces; the first-generation
`registerPlugin` instead silently skips bare symbols of non-func, non-pointer
kinds, dropping them from the symbol map without any error. -/
theorem C9_invalid_symbols (tk : Reflect.Kind) (v : GoValue) :
    (tk ≠ Reflect.Kind.Func → tk ≠ Reflect.Kind.Interface →
      ∃ e, Validate tk v = Except.error e) ∧
    (v.isNil = true → ∃ e, Validate Reflect.Kind.Func v = Except.error e) ∧
    (v.kind = Reflect.Kind.Invalid ∨
        (v.kind = Reflect.Kind.Pointer ∧ v.isNil = true) →
      ∃ e, Validate Reflect.Kind.Interface v = Except.error e) ∧
    (∀ (m : List (String × V1.V1Symbol)) (k : Reflect.Kind) (name : String)
        (rest : List V1.V1Symbol), k ≠ Reflect.Kind.Func →
      k ≠ Reflect.Kind.Pointer →
      V1.buildSymbolMapFrom m (V1.V1Symbol.bare k name :: rest) =
        V1.buildSymbolMapFrom m rest) := by
  refine ⟨?_, ?_, ?_, ?_⟩
  · intro h1 h2
    cases tk with
    | Func => exact absurd rfl h1
    | Interface => exact absurd rfl h2
    | Pointer => exact ⟨_, rfl⟩
    | Invalid => exact ⟨_, rfl⟩
    | Other => exact ⟨_, rfl⟩
  · intro hnil
    refine ⟨"func symbol must not be nil", ?_⟩
    simp [Validate, hnil]
  · intro hbad
    refine ⟨"interface symbol must not be nil", ?_⟩
    rcases hbad with hinv | ⟨hptr, hnil⟩
    · simp [Validate, hinv]
    · simp [Validate, hptr, hnil]
  · intro m k name rest h1 h2
    have hk : ¬ (k = Reflect.Kind.Func ∨ k = Reflect.Kind.Pointer) := by
      rintro (h | h)
      · exact h1 h
      · exact h2 h
    simp [V1.buildSymbolMapFrom, hk]

theorem C9_invalid_symbols_witness :
    (Reflect.Kind.Other ≠ Reflect.Kind.Func ∧
      Reflect.Kind.Other ≠ Reflect.Kind.Interface) ∧
    (∃ e, Validate Reflect.Kind.Other ⟨Reflect.Kind.Other, false⟩ =
      Except.error e) ∧
    (∃ e, Validate Reflect.Kind.Func ⟨Reflect.Kind.Func, true⟩ =
      Except.error e) ∧
    (∃ e, Validate Reflect.Kind.Interface ⟨Reflect.Kind.Invalid, false⟩ =
      Except.error e) ∧
    V1.buildSymbolMapFrom [] [V1.V1Symbol.bare Reflect.Kind.Other "x"] =
      V1.buildSymbolMapFrom [] [] :=
  ⟨⟨by decide, by decide⟩,
    (C9_invalid_symbols Reflect.Kind.Other ⟨Reflect.Kind.Other, false⟩).1
      (by decide) (by decide),
    (C9_invalid_symbols Reflect.Kind.Other ⟨Reflect.Kind.Func, true⟩).2.1 rfl,
    (C9_invalid_symbols Reflect.Kind.Other ⟨Reflect.Kind.Invalid, false⟩).2.2.1
      (Or.inl rfl),
    (C9_invalid_symbols Reflect.Kind.Other ⟨Reflect.Kind.Other, false⟩).2.2.2
      [] Reflect.Kind.Other "x" [] (by decide) (by decide)⟩

/-- C10: a non-empty placement string that starts with neither `'<'` nor
`'>'` is treated exactly like the empty placement: applying its directive
never repositions anything (the entry keeps its current position, no error),
and the resolved owner order is the same as if the entry had registered no
placement at all. -/
theorem C10_nondirective_placement {T : Type} (l : List (Symbol T))
    (n : String)
    (hnodir : ∀ x ∈ l, x.Plugin = n →
      startsWithChar x.Placement '<' = false ∧
      startsWithChar x.Placement '>' = false) :
    (∀ (w : List (Symbol T)) (e : Symbol T),
      startsWithChar e.Placement '<' = false →
      startsWithChar e.Placement '>' = false → sortStep w e = w) ∧
    (sortSymbols (l.map (unplace n))).map (fun s => s.Plugin) =
      (sortSymbols l).map (fun s => s.Plugin) := by
  have hstep : ∀ x ∈ l, ∀ w : List (Symbol T),
      sortStep w (unplace n x) = sortStep w x := by
    intro x hx w
    by_cases hxn : x.Plugin = n
    · have hu : (unplace n x).Placement = "" := by simp [unplace, hxn]
      have h1 : sortStep w (unplace n x) = w := by
        apply sortStep_no_directive
        · rw [hu]
          rfl
        · rw [hu]
          rfl
      have h2 : sortStep w x = w :=
        sortStep_no_directive w x (hnodir x hx hxn).1 (hnodir x hx hxn).2
      rw [h1, h2]
    · have hux : unplace n x = x := by simp [unplace, hxn]
      rw [hux]
  refine ⟨fun w e hlt hgt => sortStep_no_directive w e hlt hgt, ?_⟩
  rw [sortSymbols_map (unplace n) (unplace_plugin n) l hstep,
    map_plugin_of_map_name_preserving (unplace n) (unplace_plugin n)]

theorem C10_nondirective_placement_witness :
    (∀ x ∈ [sym "beta" "foo", sym "gamma" "", sym "alpha" ""],
      x.Plugin = "beta" →
      startsWithChar x.Placement '<' = false ∧
      startsWithChar x.Placement '>' = false) ∧
    ((∀ (w : List (Symbol Unit)) (e : Symbol Unit),
      startsWithChar e.Placement '<' = false →
      startsWithChar e.Placement '>' = false → sortStep w e = w) ∧
    (sortSymbols ([sym "beta" "foo", sym "gamma" "", sym "alpha" ""].map
      (unplace "beta"))).map (fun s => s.Plugin) =
      (sortSymbols [sym "beta" "foo", sym "gamma" "", sym "alpha" ""]).map
        (fun s => s.Plugin)) ∧
    (sortSymbols [sym "beta" "foo", sym "gamma" "", sym "alpha" ""]).map
      (fun s => s.Plugin) = ["alpha", "beta", "gamma"] :=
  ⟨by decide, C10_nondirective_placement _ "beta" (by decide), by decide⟩

end Plugger
